import Mathlib

/-!
Shallow embedding of the boolean tag-expression pipeline of
`src/taglogic/src/bool.rs` (lexer `lex`, parser `AstNode::munch_tokens`,
wrapper `Expr::from_string`), together with theorems settling the frozen
claims about it.

Modelling conventions:
  * Rust `String` / `&str` values are `List Char`.
  * `Result<T, &'static str>` is `Except String T`.
  * The `VecDeque<Token>` that the parser consumes destructively is passed
    as an explicit `List Token`; `munch_tokens` returns the parsed node
    together with the remaining queue.
  * `munch_tokens` recurses on an explicit fuel parameter (the Rust
    function recurses on a queue it also grows, so no structural measure
    exists on the queue alone); a theorem below shows the fuel bound used
    by `Expr.from_string` is always sufficient, so the `none`
    (out-of-fuel) value is unreachable.
-/

namespace TagLogic

/-- Rust `enum BinaryOp` (bool.rs lines 3-7). -/
inductive BinaryOp where
  | and
  | or
deriving DecidableEq

/-- `BinaryOp::as_char` (bool.rs lines 10-15). -/
def BinaryOp.as_char : BinaryOp → Char
  | .and => '&'
  | .or  => '|'

/-- `BinaryOp::from_char` (bool.rs lines 16-22). -/
def BinaryOp.from_char (c : Char) : Option BinaryOp :=
  if c = '&' then some .and
  else if c = '|' then some .or
  else none

/-- `BinaryOp::from_text` (bool.rs lines 23-29). -/
def BinaryOp.from_text (text : List Char) : Option BinaryOp :=
  if text = ['a', 'n', 'd'] then some .and
  else if text = ['o', 'r'] then some .or
  else none

/-- Rust `enum Token` (bool.rs lines 32-39). -/
inductive Token where
  | openBracket
  | closeBracket
  | invert
  | name (text : List Char)
  | binaryOp (op : BinaryOp)
deriving DecidableEq

/-- Rust `char::to_ascii_lowercase`: map `A`..`Z` down by 32, leave
everything else unchanged (applied per character by
`str::to_ascii_lowercase` at bool.rs line 69). -/
def toAsciiLower (c : Char) : Char :=
  if 'A' ≤ c ∧ c ≤ 'Z' then Char.ofNat (c.toNat + 32) else c

/-- Rust `char::is_whitespace`: the Unicode `White_Space` code points
(used at bool.rs lines 65 and 96). -/
def rustIsWhitespace (c : Char) : Bool :=
  decide (c.toNat = 9 ∨ c.toNat = 10 ∨ c.toNat = 11 ∨ c.toNat = 12 ∨ c.toNat = 13 ∨
    c.toNat = 32 ∨ c.toNat = 133 ∨ c.toNat = 160 ∨ c.toNat = 5760 ∨
    (8192 ≤ c.toNat ∧ c.toNat ≤ 8202) ∨ c.toNat = 8232 ∨ c.toNat = 8233 ∨
    c.toNat = 8239 ∨ c.toNat = 8287 ∨ c.toNat = 12288)

/-- Rust `enum ParseState` local to `lex` (bool.rs lines 42-48).  The
in-progress name accumulator `cur_name` is only read while the state is
`InName`, so it is carried inside that constructor. -/
inductive LexState where
  | anyExpected
  | inName (cur : List Char)
  | inSymbolBinOp (op : BinaryOp)
deriving DecidableEq

/-- The `end_cur_token` test of the `InName` branch (bool.rs lines 63-67):
a delimiter character or whitespace terminates a name run. -/
def endsName (c : Char) : Bool :=
  c == '(' || c == ')' || c == '&' || c == '|' || c == '!' || rustIsWhitespace c

/-- The `AnyExpected` branch of the lexer loop (bool.rs lines 82-103):
tokens emitted for `c` and the successor state. -/
def anyStep (c : Char) : List Token × LexState :=
  if c = '(' then ([.openBracket], .anyExpected)
  else if c = ')' then ([.closeBracket], .anyExpected)
  else if c = '!' then ([.invert], .anyExpected)
  else if c = '&' then ([.binaryOp .and], .inSymbolBinOp .and)
  else if c = '|' then ([.binaryOp .or], .inSymbolBinOp .or)
  else if rustIsWhitespace c then ([], .anyExpected)
  else ([], .inName [c])

/-- Flushing a finished name run (bool.rs lines 69-74): the lowercased
text is checked against the keywords, otherwise the original text becomes
a `Name` token. -/
def flushName (cur : List Char) : Token :=
  match BinaryOp.from_text (cur.map toAsciiLower) with
  | some op => .binaryOp op
  | none => .name cur

/-- One iteration of the `for c in s.chars()` loop of `lex`
(bool.rs lines 53-103).  In the Rust code the `InSymbolBinOp` and
`InName` blocks fall through to the `AnyExpected` block on the same
character after resetting the state; that fall-through is `anyStep`. -/
def lexStep (st : LexState) (c : Char) : List Token × LexState :=
  match st with
  | .anyExpected => anyStep c
  | .inName cur =>
    if endsName c then
      (flushName cur :: (anyStep c).1, (anyStep c).2)
    else
      ([], .inName (cur ++ [c]))
  | .inSymbolBinOp op =>
    if c = op.as_char then ([], .anyExpected)
    else anyStep c

/-- The lexer loop: all tokens emitted from state `st` on the remaining
characters.  Note bool.rs lines 104-105: after the loop the function
returns `Ok(tokens)` directly, so a name run still pending at end of
input is dropped, not flushed. -/
def lexGo (st : LexState) : List Char → List Token
  | [] => []
  | c :: cs => (lexStep st c).1 ++ lexGo (lexStep st c).2 cs

/-- `lex` (bool.rs lines 41-106).  The only `return` is `Ok(tokens)`; the
error channel of the `Result` is never used. -/
def lex (s : List Char) : Except String (List Token) :=
  .ok (lexGo .anyExpected s)

/-- The lexer state reached after processing `s` from state `st`
(specification-side helper used to phrase token-boundary conditions). -/
def finState (st : LexState) (s : List Char) : LexState :=
  s.foldl (fun st c => (lexStep st c).2) st

/-- Whether an `Except` result is the `ok` variant (specification-side
helper, `Result::is_ok`). -/
def isOk : Except String (List Token) → Bool
  | .ok _ => true
  | .error _ => false

/-- Rust `enum AstNode` (bool.rs lines 108-113). -/
inductive AstNode where
  | invert (child : AstNode)
  | binary (op : BinaryOp) (left right : AstNode)
  | name (text : List Char)
deriving DecidableEq

/-- `AstNode::munch_tokens` (bool.rs lines 116-196), fuel-indexed; `none`
means the fuel ran out (shown unreachable for the bound used by
`Expr.from_string`).  The queue is matched against the shapes the Rust
`get(0)` / `get(1)` / `get(2)` probes distinguish; `remove(0)` is
dropping the head, and the two `insert` pairs that rewrite the stream are
written out as the rewritten list.  The Rust `loop` is vestigial (every
arm returns), so the body is a straight-line dispatch.  Note two
behaviours taken verbatim from the source: in the `Invert` arm the invert
token is removed *before* the `get(1)`/`get(2)` probes (lines 125-128),
and in the `OpenBracket` arm the trailing binary operator is still at the
front of the queue when the right-hand side is recursively parsed
(lines 166-169). -/
def AstNode.munch_tokens : Nat → List Token → Option (Except String (AstNode × List Token))
  | 0, _ => none
  | fuel + 1, tokens =>
    match tokens with
    | [] => some (.error "unexpected end of expression")
    | next :: rest =>
      match next with
      | .closeBracket => some (.error "Unexpected closing bracket")
      | .invert =>
        -- lines 124-155: `tokens.remove(0)` (drop the invert), then probe
        -- `tokens.get(1)` and `tokens.get(2)` of the shortened queue.
        match rest with
        | [] => some (.error "Expected token to invert, got EOF")
        | [_] => some (.error "Expected token to invert, got EOF")
        | _ :: .openBracket :: _ =>
          match munch_tokens fuel rest with
          | none => none
          | some (.error e) => some (.error e)
          | some (.ok (inner, rem)) => some (.ok (.invert inner, rem))
        | x0 :: .name text :: rest2 =>
          match rest2 with
          | .binaryOp _ :: _ =>
            -- lines 136-142: insert `)` at index 2 and `(` at index 0,
            -- then re-dispatch on the rewritten queue.
            munch_tokens fuel (.openBracket :: x0 :: .name text :: .closeBracket :: rest2)
          | [] => some (.ok (.invert (.name text), .name text :: rest2))
          | .closeBracket :: _ => some (.ok (.invert (.name text), .name text :: rest2))
          | _ :: _ => some (.error "invalid token after inverted name")
        | _ :: .invert :: _ => some (.error "can\x27t double invert, that would be pointless")
        | _ :: _ :: _ => some (.error "expected expression")
      | .openBracket =>
        -- lines 157-173: drop the open bracket, parse the interior,
        -- require a close bracket, then look for a following operator.
        match munch_tokens fuel rest with
        | none => none
        | some (.error e) => some (.error e)
        | some (.ok (result, rem)) =>
          match rem with
          | .closeBracket :: rem2 =>
            match rem2 with
            | .binaryOp op :: _ =>
              -- lines 166-169: the operator is *not* removed before the
              -- recursive call; `tokens.remove(0)` runs only afterwards.
              match munch_tokens fuel rem2 with
              | none => none
              | some (.error e) => some (.error e)
              | some (.ok (rhs, rem3)) => some (.ok (.binary op result rhs, rem3.tail))
            | .closeBracket :: _ => some (.ok (result, rem2))
            | [] => some (.ok (result, rem2))
            | _ :: _ => some (.error "invald token after closing bracket")
          | _ => some (.error "expected closing bracket")
      | .binaryOp _ => some (.error "Unexpected binary operator")
      | .name text =>
        -- lines 176-193: probe `tokens.get(1)` without removing the name.
        match rest with
        | .binaryOp _ :: _ =>
          -- lines 179-183: insert `)` at index 1 and `(` at index 0.
          munch_tokens fuel (.openBracket :: .name text :: .closeBracket :: rest)
        | [] => some (.ok (.name text, rest))
        | .closeBracket :: _ => some (.ok (.name text, rest))
        | _ :: _ => some (.error "name followed by invalid token")

/-- Rust `enum ExprData` (bool.rs lines 199-203). -/
inductive ExprData where
  | empty
  | hasNodes (node : AstNode)
deriving DecidableEq

/-- Rust `pub struct Expr(ExprData)` (bool.rs line 206). -/
structure Expr where
  data : ExprData
deriving DecidableEq

/-- `Expr::from_string` (bool.rs lines 209-219).  The fuel handed to
`munch_tokens` is `tokens.length + 5`, proven sufficient below, so the
`none` branch is unreachable. -/
def Expr.from_string (s : List Char) : Except String Expr :=
  match lex s with
  | .error e => .error e
  | .ok ts =>
    if ts.isEmpty then .ok ⟨.empty⟩
    else
      match AstNode.munch_tokens (ts.length + 5) ts with
      | none => .error "internal: fuel exhausted"
      | some (.error e) => .error e
      | some (.ok (ast, rem)) =>
        if rem.isEmpty then .ok ⟨.hasNodes ast⟩
        else .error "expected EOF, found extra tokens"

/-- The spellings of each keyword operator in every letter case
(specification-side helper for the symbol/keyword interchangeability
claim). -/
def kwVariants : BinaryOp → List (List Char)
  | .and => [['a','n','d'], ['a','n','D'], ['a','N','d'], ['a','N','D'],
             ['A','n','d'], ['A','n','D'], ['A','N','d'], ['A','N','D']]
  | .or  => [['o','r'], ['o','R'], ['O','r'], ['O','R']]

/-- Decidable equality of `Except` results, so that concrete lexer and
parser outcomes can be settled by `decide`. -/
instance {ε α : Type} [DecidableEq ε] [DecidableEq α] : DecidableEq (Except ε α) := fun x y =>
  match x, y with
  | .error a, .error b =>
    match decEq a b with
    | isTrue h => isTrue (congrArg Except.error h)
    | isFalse h => isFalse fun hx => h (Except.error.inj hx)
  | .error _, .ok _ => isFalse fun hx => Except.noConfusion hx
  | .ok _, .error _ => isFalse fun hx => Except.noConfusion hx
  | .ok a, .ok b =>
    match decEq a b with
    | isTrue h => isTrue (congrArg Except.ok h)
    | isFalse h => isFalse fun hx => h (Except.ok.inj hx)

/-! ### Sanity anchor: the repository's own lexer test -/

/-- The embedded lexer reproduces, token for token, the expected output of
the repository's `nested_lex` test (bool.rs lines 227-255). -/
theorem lex_matches_bundled_test :
    lex "abc & !(( ! xyz || dwf) | (!abc or dwp) & (dwp and r   ) )  ".toList =
      .ok [Token.name ['a','b','c'],
           Token.binaryOp .and,
           Token.invert,
           Token.openBracket,
           Token.openBracket,
           Token.invert,
           Token.name ['x','y','z'],
           Token.binaryOp .or,
           Token.name ['d','w','f'],
           Token.closeBracket,
           Token.binaryOp .or,
           Token.openBracket,
           Token.invert,
           Token.name ['a','b','c'],
           Token.binaryOp .or,
           Token.name ['d','w','p'],
           Token.closeBracket,
           Token.binaryOp .and,
           Token.openBracket,
           Token.name ['d','w','p'],
           Token.binaryOp .and,
           Token.name ['r'],
           Token.closeBracket,
           Token.closeBracket] := by
  decide

/-! ### Claim theorems on concrete inputs -/

/-- Claim C1: the claim says that for inputs of the form `(X) op Y` with
`X`, `Y` parsing on their own, parsing succeeds with a `Binary` node.  On
the code it does not: with `X = (a)` and `Y = (b)` (both of which parse
successfully on their own, to `Name a` and `Name b`), parsing
`((a)) & (b)` fails with "Unexpected binary operator", because the
`OpenBracket` arm recurses into the remainder while the operator is still
at the front of the queue (bool.rs lines 166-169 remove it only after the
recursive call). -/
theorem c1_bracket_binop_errors :
    Expr.from_string "((a)) & (b)".toList = .error "Unexpected binary operator" ∧
    Expr.from_string "(a)".toList = .ok ⟨.hasNodes (.name ['a'])⟩ ∧
    Expr.from_string "(b)".toList = .ok ⟨.hasNodes (.name ['b'])⟩ := by
  decide

/-- Claim C2: the claim says a name run still pending at end of input is
flushed, so `lex "abc"` should be `Ok [Name "abc"]`.  On the code the
pending run is dropped (bool.rs lines 104-105 return without flushing):
`lex "abc"` is `Ok []`, while the same run followed by a delimiter is
flushed as expected. -/
theorem c2_eof_drops_pending_name :
    lex "abc".toList = .ok [] ∧
    lex "abc ".toList = .ok [Token.name ['a','b','c']] := by
  decide

/-- Claim C3: the claim says `"!abc & xyz"` parses to
`Binary(And, Invert(Name abc), Name xyz)`.  On the code it fails with
"expected expression": the lexer drops the trailing `xyz` at end of
input, and the `Invert` arm, having already removed the invert token,
probes `get(1)` — one position past the name — and finds the operator
there (bool.rs lines 125-128). -/
theorem c3_invert_binop_errors :
    Expr.from_string "!abc & xyz".toList = .error "expected expression" := by
  decide

/-- Claim C4: the claim says `"a"` parses to `Name a` and `"!a"` to
`Invert(Name a)`.  On the code `"a"` lexes to no tokens at all (pending
name dropped at end of input) and so parses to the empty expression, and
`"!a"` fails with "Expected token to invert, got EOF". -/
theorem c4_lone_name_and_inverted_name :
    Expr.from_string "a".toList = .ok ⟨.empty⟩ ∧
    Expr.from_string "!a".toList = .error "Expected token to invert, got EOF" := by
  decide

/-- Claim C8: the claim says `"!!a"` fails with the double-negation
rejection.  On the code it fails, but with the premature-end-of-input
error of the `Invert` arm instead: the lexer drops the trailing `a`, so
the queue is `[Invert, Invert]`, and after removing the first invert the
probe `get(1)` runs off the end (bool.rs lines 125-128, 154). -/
theorem c8_double_invert_wrong_error :
    Expr.from_string "!!a".toList = .error "Expected token to invert, got EOF" ∧
    Expr.from_string "!!a".toList ≠
      .error "can\x27t double invert, that would be pointless" := by
  decide

/-- Claim C9: the claim says `"(((a)))"` parses to the same expression as
`"a"`.  On the code `"(((a)))"` parses to `Name a` but `"a"` parses to
the empty expression (the lexer drops the pending name at end of input),
so the two results differ. -/
theorem c9_triple_brackets_vs_bare_name :
    Expr.from_string "(((a)))".toList = .ok ⟨.hasNodes (.name ['a'])⟩ ∧
    Expr.from_string "a".toList = .ok ⟨.empty⟩ ∧
    Expr.from_string "(((a)))".toList ≠ Expr.from_string "a".toList := by
  decide

/-- Claim C6: lexing is total — `lex` returns `ok` on every input; the
error channel of its `Result` is never used. -/
theorem c6_lex_total (s : List Char) : isOk (lex s) = true := rfl

/-! ### Whitespace-only input (claim C5) -/

lemma anyStep_ws {c : Char} (h : rustIsWhitespace c = true) :
    anyStep c = ([], .anyExpected) := by
  have h1 : c ≠ '(' := by rintro rfl; exact absurd h (by decide)
  have h2 : c ≠ ')' := by rintro rfl; exact absurd h (by decide)
  have h3 : c ≠ '!' := by rintro rfl; exact absurd h (by decide)
  have h4 : c ≠ '&' := by rintro rfl; exact absurd h (by decide)
  have h5 : c ≠ '|' := by rintro rfl; exact absurd h (by decide)
  simp [anyStep, h1, h2, h3, h4, h5, h]

lemma lexGo_all_ws : ∀ s : List Char, (∀ c ∈ s, rustIsWhitespace c = true) →
    lexGo .anyExpected s = [] := by
  intro s
  induction s with
  | nil => intro _; rfl
  | cons c cs ih =>
    intro h
    have hc : rustIsWhitespace c = true := h c (List.mem_cons_self c cs)
    have hstep : lexStep .anyExpected c = ([], .anyExpected) := anyStep_ws hc
    show (lexStep .anyExpected c).1 ++ lexGo (lexStep .anyExpected c).2 cs = []
    rw [hstep]
    exact ih fun d hd => h d (List.mem_cons_of_mem c hd)

/-- Claim C5: an input consisting only of whitespace characters (the
empty input included) parses to the distinguished empty expression, never
to an error or to any other variant. -/
theorem c5_whitespace_empty (s : List Char)
    (h : ∀ c ∈ s, rustIsWhitespace c = true) :
    Expr.from_string s = .ok ⟨.empty⟩ := by
  have hlex : lex s = .ok [] := by
    show Except.ok (lexGo .anyExpected s) = Except.ok []
    rw [lexGo_all_ws s h]
  show (match lex s with
    | .error e => Except.error e
    | .ok ts =>
      if ts.isEmpty then .ok (⟨.empty⟩ : Expr)
      else
        match AstNode.munch_tokens (ts.length + 5) ts with
        | none => .error "internal: fuel exhausted"
        | some (.error e) => .error e
        | some (.ok (ast, rem)) =>
          if rem.isEmpty then .ok ⟨.hasNodes ast⟩
          else .error "expected EOF, found extra tokens") = .ok ⟨.empty⟩
  rw [hlex]
  rfl

/-- Witness for C5 at the concrete input of two spaces and a tab. -/
theorem c5_whitespace_empty_witness :
    Expr.from_string "  \t".toList = .ok ⟨.empty⟩ :=
  c5_whitespace_empty _ (by decide)

/-! ### Operator-spelling interchangeability (claim C7) -/

lemma lexGo_cons (st : LexState) (c : Char) (cs : List Char) :
    lexGo st (c :: cs) = (lexStep st c).1 ++ lexGo (lexStep st c).2 cs := rfl

lemma lexStep_any_eq (c : Char) : lexStep .anyExpected c = anyStep c := rfl

lemma finState_cons (st : LexState) (c : Char) (cs : List Char) :
    finState st (c :: cs) = finState (lexStep st c).2 cs := rfl

lemma lexGo_append (xs : List Char) : ∀ (st : LexState) (ys : List Char),
    lexGo st (xs ++ ys) = lexGo st xs ++ lexGo (finState st xs) ys := by
  induction xs with
  | nil => intro st ys; rfl
  | cons c cs ih =>
    intro st ys
    show (lexStep st c).1 ++ lexGo (lexStep st c).2 (cs ++ ys) = _
    rw [ih, lexGo_cons, finState_cons, List.append_assoc]

lemma anyStep_as_char (op : BinaryOp) :
    anyStep op.as_char = ([Token.binaryOp op], .inSymbolBinOp op) := by
  cases op <;> rfl

lemma lexStep_isb_same (op : BinaryOp) :
    lexStep (.inSymbolBinOp op) op.as_char = ([], .anyExpected) := by
  cases op <;> rfl

lemma lexStep_isb_other (op : BinaryOp) {c : Char} (h : c ≠ op.as_char) :
    lexStep (.inSymbolBinOp op) c = anyStep c := by
  simp [lexStep, h]

lemma lexStep_inName_ends (cur : List Char) {c : Char} (h : endsName c = true) :
    lexStep (.inName cur) c = (flushName cur :: (anyStep c).1, (anyStep c).2) := by
  simp [lexStep, h]

lemma kw_run (op : BinaryOp) (w : List Char) (hw : w ∈ kwVariants op) (v : List Char) :
    lexGo .anyExpected (w ++ v) = lexGo (.inName w) v := by
  cases op with
  | and =>
    simp [kwVariants] at hw
    rcases hw with rfl | rfl | rfl | rfl | rfl | rfl | rfl | rfl <;> rfl
  | or =>
    simp [kwVariants] at hw
    rcases hw with rfl | rfl | rfl | rfl <;> rfl

lemma kw_flush (op : BinaryOp) (w : List Char) (hw : w ∈ kwVariants op) :
    flushName w = Token.binaryOp op := by
  cases op with
  | and =>
    simp [kwVariants] at hw
    rcases hw with rfl | rfl | rfl | rfl | rfl | rfl | rfl | rfl <;> decide
  | or =>
    simp [kwVariants] at hw
    rcases hw with rfl | rfl | rfl | rfl <;> decide

lemma from_string_lex_congr {s1 s2 : List Char} (h : lex s1 = lex s2) :
    Expr.from_string s1 = Expr.from_string s2 := by
  unfold Expr.from_string
  rw [h]

/-- Claim C7 (amended): with the lexer at a token boundary before the
occurrence (state `AnyExpected` after the prefix `u`) and a delimiter or
whitespace character other than the operator's own symbol immediately
after it, the spellings `&`, `&&`, and any letter-case variant of `and`
(respectively `|`, `||`, `or`) are interchangeable: the lexed token
sequence and the parse result are identical.  The claim as frozen also
covers occurrences at end of input, where it fails on the code (see the
counterexample): a keyword spelling pending at end of input is dropped by
the lexer. -/
theorem c7_interchange (u v w : List Char) (op : BinaryOp)
    (hu : finState .anyExpected u = .anyExpected)
    (hw : w ∈ kwVariants op)
    (hv : ∃ c v2, v = c :: v2 ∧ endsName c = true ∧ c ≠ op.as_char) :
    lex (u ++ [op.as_char] ++ v) = lex (u ++ [op.as_char, op.as_char] ++ v) ∧
    lex (u ++ [op.as_char] ++ v) = lex (u ++ w ++ v) ∧
    Expr.from_string (u ++ [op.as_char] ++ v) =
      Expr.from_string (u ++ [op.as_char, op.as_char] ++ v) ∧
    Expr.from_string (u ++ [op.as_char] ++ v) = Expr.from_string (u ++ w ++ v) := by
  obtain ⟨c, v2, rfl, hc, hne⟩ := hv
  have hmid : ∀ m : List Char,
      lexGo .anyExpected (m ++ (c :: v2)) =
        Token.binaryOp op :: ((anyStep c).1 ++ lexGo (anyStep c).2 v2) →
      lex ((u ++ m) ++ (c :: v2)) =
        .ok (lexGo .anyExpected u ++
          (Token.binaryOp op :: ((anyStep c).1 ++ lexGo (anyStep c).2 v2))) := by
    intro m hm
    show Except.ok (lexGo .anyExpected ((u ++ m) ++ (c :: v2))) = _
    rw [List.append_assoc, lexGo_append, hu, hm]
  have h1 : lexGo .anyExpected ([op.as_char] ++ (c :: v2)) =
      Token.binaryOp op :: ((anyStep c).1 ++ lexGo (anyStep c).2 v2) := by
    show lexGo .anyExpected (op.as_char :: c :: v2) = _
    rw [lexGo_cons, lexStep_any_eq, anyStep_as_char, lexGo_cons, lexStep_isb_other op hne]
    rfl
  have h2 : lexGo .anyExpected ([op.as_char, op.as_char] ++ (c :: v2)) =
      Token.binaryOp op :: ((anyStep c).1 ++ lexGo (anyStep c).2 v2) := by
    show lexGo .anyExpected (op.as_char :: op.as_char :: c :: v2) = _
    rw [lexGo_cons, lexStep_any_eq, anyStep_as_char, lexGo_cons, lexStep_isb_same,
      lexGo_cons, lexStep_any_eq]
    rfl
  have h3 : lexGo .anyExpected (w ++ (c :: v2)) =
      Token.binaryOp op :: ((anyStep c).1 ++ lexGo (anyStep c).2 v2) := by
    rw [kw_run op w hw, lexGo_cons, lexStep_inName_ends w hc, kw_flush op w hw]
    rfl
  have e1 := hmid [op.as_char] h1
  have e2 := hmid [op.as_char, op.as_char] h2
  have e3 := hmid w h3
  have l12 : lex (u ++ [op.as_char] ++ (c :: v2)) =
      lex (u ++ [op.as_char, op.as_char] ++ (c :: v2)) := by rw [e1, e2]
  have l13 : lex (u ++ [op.as_char] ++ (c :: v2)) = lex (u ++ w ++ (c :: v2)) := by
    rw [e1, e3]
  exact ⟨l12, l13, from_string_lex_congr l12, from_string_lex_congr l13⟩

/-- Witness for C7 at `u = "x "`, operator And spelled `&`, `&&`, `AND`,
and `v = " y"`. -/
theorem c7_interchange_witness :
    lex (['x', ' '] ++ ['&'] ++ [' ', 'y']) =
      lex (['x', ' '] ++ ['&', '&'] ++ [' ', 'y']) ∧
    lex (['x', ' '] ++ ['&'] ++ [' ', 'y']) =
      lex (['x', ' '] ++ ['A', 'N', 'D'] ++ [' ', 'y']) ∧
    Expr.from_string (['x', ' '] ++ ['&'] ++ [' ', 'y']) =
      Expr.from_string (['x', ' '] ++ ['&', '&'] ++ [' ', 'y']) ∧
    Expr.from_string (['x', ' '] ++ ['&'] ++ [' ', 'y']) =
      Expr.from_string (['x', ' '] ++ ['A', 'N', 'D'] ++ [' ', 'y']) :=
  c7_interchange ['x', ' '] [' ', 'y'] ['A', 'N', 'D'] .and (by decide) (by decide)
    ⟨' ', ['y'], rfl, by decide, by decide⟩

/-- Counterexample to claim C7 as frozen: replacing the operator token
`&` of `"x &"` by the keyword spelling `and` (giving `"x and"`) changes
both the token sequence and the parse result, because the keyword run is
still pending when the input ends and the lexer drops it. -/
theorem c7_spelling_counterexample :
    lex "x &".toList ≠ lex "x and".toList ∧
    Expr.from_string "x &".toList ≠ Expr.from_string "x and".toList := by
  decide

/-! ### Termination of the parser (claim C10)

The parser's rewrite-and-redispatch step grows the queue, so the queue
length alone does not decrease.  The key observations: every rewrite
leads, within a bounded number of forced steps, to the continuation
`munch_tokens` being entered with a binary operator at the front of the
queue, which fails in one step (the source never removes the operator
before that call); and the only unboundedly recursive calls drop the
front of the queue.  Hence fuel `length + 5` always suffices. -/

lemma munch_isSome : ∀ (n : Nat) (q : List Token) (fuel : Nat),
    q.length ≤ n → q.length + 5 ≤ fuel →
    (AstNode.munch_tokens fuel q).isSome = true := by
  intro n
  induction n with
  | zero =>
    intro q fuel hq hf
    have hq0 : q = [] := List.length_eq_zero.mp (Nat.le_zero.mp hq)
    subst hq0
    obtain ⟨f, rfl⟩ : ∃ f, fuel = f + 1 := ⟨fuel - 1, by omega⟩
    simp [AstNode.munch_tokens]
  | succ n IH =>
    intro q fuel hq hf
    obtain ⟨f, rfl⟩ : ∃ f, fuel = f + 1 := ⟨fuel - 1, by omega⟩
    cases q with
    | nil => simp [AstNode.munch_tokens]
    | cons next rest =>
      cases next with
      | closeBracket => simp [AstNode.munch_tokens]
      | binaryOp op => simp [AstNode.munch_tokens]
      | name t =>
        cases rest with
        | nil => simp [AstNode.munch_tokens]
        | cons r1 rest1 =>
          cases r1 with
          | closeBracket => simp [AstNode.munch_tokens]
          | openBracket => simp [AstNode.munch_tokens]
          | invert => simp [AstNode.munch_tokens]
          | name t2 => simp [AstNode.munch_tokens]
          | binaryOp op =>
            obtain ⟨g, rfl⟩ : ∃ g, f = g + 3 := ⟨f - 3, by simp at hf; omega⟩
            simp [AstNode.munch_tokens]
      | invert =>
        cases rest with
        | nil => simp [AstNode.munch_tokens]
        | cons x0 rest1 =>
          cases rest1 with
          | nil => simp [AstNode.munch_tokens]
          | cons y1 rest2 =>
            cases y1 with
            | invert => simp [AstNode.munch_tokens]
            | closeBracket => simp [AstNode.munch_tokens]
            | binaryOp op => simp [AstNode.munch_tokens]
            | openBracket =>
              have hrec := IH (x0 :: Token.openBracket :: rest2) f
                (by simp at hq ⊢; omega) (by simp at hf ⊢; omega)
              rcases ho : AstNode.munch_tokens f (x0 :: Token.openBracket :: rest2) with _ | r
              · rw [ho] at hrec
                exact absurd hrec (by simp)
              · rcases r with e | ⟨a, rem⟩ <;> simp [AstNode.munch_tokens, ho]
            | name t =>
              cases rest2 with
              | nil => simp [AstNode.munch_tokens]
              | cons z2 rest3 =>
                cases z2 with
                | closeBracket => simp [AstNode.munch_tokens]
                | openBracket => simp [AstNode.munch_tokens]
                | invert => simp [AstNode.munch_tokens]
                | name t2 => simp [AstNode.munch_tokens]
                | binaryOp op =>
                  obtain ⟨g, rfl⟩ : ∃ g, f = g + 3 := ⟨f - 3, by simp at hf; omega⟩
                  cases x0 <;> simp [AstNode.munch_tokens]
      | openBracket =>
        have hrec := IH rest f (by simp at hq ⊢; omega) (by simp at hf ⊢; omega)
        rcases ho : AstNode.munch_tokens f rest with _ | r
        · rw [ho] at hrec
          exact absurd hrec (by simp)
        rcases r with e | ⟨a, rem⟩
        · simp [AstNode.munch_tokens, ho]
        · rcases rem with _ | ⟨rt, rem2⟩
          · simp [AstNode.munch_tokens, ho]
          cases rt with
          | closeBracket =>
            rcases rem2 with _ | ⟨rt2, rem3⟩
            · simp [AstNode.munch_tokens, ho]
            cases rt2 with
            | binaryOp op2 =>
              -- the continuation enters `munch_tokens` with the operator
              -- still at the front of the queue, which fails in one step
              simp only [AstNode.munch_tokens, ho]
              obtain ⟨g, rfl⟩ : ∃ g, f = g + 1 := ⟨f - 1, by simp at hf; omega⟩
              simp [AstNode.munch_tokens]
            | closeBracket => simp [AstNode.munch_tokens, ho]
            | openBracket => simp [AstNode.munch_tokens, ho]
            | invert => simp [AstNode.munch_tokens, ho]
            | name t2 => simp [AstNode.munch_tokens, ho]
          | openBracket => simp [AstNode.munch_tokens, ho]
          | invert => simp [AstNode.munch_tokens, ho]
          | name t2 => simp [AstNode.munch_tokens, ho]
          | binaryOp op2 => simp [AstNode.munch_tokens, ho]

/-- Claim C10: parsing terminates on every input.  In this embedding
`munch_tokens` recurses on explicit fuel; this theorem shows that the
fuel budget `Expr.from_string` grants (queue length plus five) is always
sufficient — the computation completes with a `some` result (success or
parse error), never hitting the fuel cutoff, for every token queue,
including the queues grown by the rewrite-and-redispatch step. -/
theorem c10_munch_terminates (q : List Token) (fuel : Nat)
    (h : q.length + 5 ≤ fuel) :
    (AstNode.munch_tokens fuel q).isSome = true :=
  munch_isSome q.length q fuel le_rfl h

/-- Witness for C10 on the token queue of `"(((a)))"` with the fuel
`Expr.from_string` would grant it. -/
theorem c10_munch_terminates_witness :
    (AstNode.munch_tokens 12
      [Token.openBracket, Token.openBracket, Token.openBracket,
       Token.name ['a'], Token.closeBracket, Token.closeBracket,
       Token.closeBracket]).isSome = true :=
  c10_munch_terminates _ 12 (by decide)

end TagLogic
